import Mathlib

/-!
Verification of the expression chip-editor component (`ExpressionComponent`).
The component keeps the raw expression string as the single source of truth
and re-derives a list of segments from it on every render.  We embed the
string-level logic as pure Lean functions over `List Char`:
`parseValue` mirrors the regex-scan loop over the reference-token pattern
(each iteration finds the next `$` followed by a maximal nonempty run of
identifier characters, emits the pending literal text, if nonempty, as one
Text segment, emits the token as a Chip segment, and continues after the
token); `segmentsToString` concatenates the `content` fields; and the event
handlers (`handleInputChange` dropdown logic, `handleChipSelect`,
`handleKeyDown` arrow navigation, `handleKeyDownWithChipDeletion`) are
embedded as pure state-transition functions.
-/

/-- Segment kind: literal text or a reference chip. -/
inductive SegType where
  | text : SegType
  | chip : SegType
deriving DecidableEq, Repr

/-- A parsed segment of the raw expression string (`ParsedSegment` in the
source): `content` is the exact substring covered, and for chips
`transactionId` is the identifier without the leading dollar sign. -/
structure ParsedSegment where
  type : SegType
  content : List Char
  transactionId : Option (List Char) := none
deriving DecidableEq, Repr

/-- Identifier character class of the reference-token pattern:
`[a-zA-Z0-9-]` (ASCII letters, digits, hyphen; the dollar sign is excluded). -/
def isIdentChar (c : Char) : Bool :=
  c.isAlphanum || c = '-'

/-- Recursive form of the regex-scan loop in `parseValue`.  `pending` is the
literal text accumulated since the end of the previous match (the source
tracks this with `lastIndex`); a match is a `$` whose next character is an
identifier character, covering the maximal identifier run. -/
def parseAux (pending : List Char) : List Char → List ParsedSegment
  | [] => if pending = [] then [] else [⟨SegType.text, pending, none⟩]
  | c :: cs =>
    if c = '$' ∧ cs.takeWhile isIdentChar ≠ [] then
      (if pending = [] then [] else [⟨SegType.text, pending, none⟩]) ++
        ⟨SegType.chip, '$' :: cs.takeWhile isIdentChar,
          some (cs.takeWhile isIdentChar)⟩ ::
          parseAux [] (cs.dropWhile isIdentChar)
    else
      parseAux (pending ++ [c]) cs
termination_by l => l.length
decreasing_by
  all_goals simp_wf
  all_goals
    have h := (List.dropWhile_suffix (p := isIdentChar) (l := cs)).length_le
  all_goals omega

/-- Parse the raw value string into segments (text and chips). -/
def parseValue (val : List Char) : List ParsedSegment :=
  parseAux [] val

/-- Convert segments back to a string: concatenation of the contents. -/
def segmentsToString (segments : List ParsedSegment) : List Char :=
  (segments.map (fun s => s.content)).flatten

/-- Number of non-overlapping, left-to-right matches of the reference-token
pattern `$[a-zA-Z0-9-]+` in a string: scanning left to right, a match is a
dollar sign followed by a nonempty maximal run of identifier characters, and
the scan resumes immediately after each match. -/
def countMatches : List Char → Nat
  | [] => 0
  | c :: cs =>
    if c = '$' ∧ cs.takeWhile isIdentChar ≠ [] then
      1 + countMatches (cs.dropWhile isIdentChar)
    else
      countMatches cs
termination_by l => l.length
decreasing_by
  all_goals simp_wf
  all_goals
    have h := (List.dropWhile_suffix (p := isIdentChar) (l := cs)).length_le
  all_goals omega

/-- Total length of the contents of a list of segments; the start offset of
the segment after them in the raw string. -/
def segsLength (segs : List ParsedSegment) : Nat :=
  (segs.map (fun s => s.content.length)).sum

/-- The segment loop of `handleKeyDownWithChipDeletion`: walk the segments
tracking `currentPos`; at the first segment whose inclusive range
`[currentPos, currentPos + content.length]` contains the cursor AND which is
a chip, delete it (return the remaining segments and the segment start);
a text segment containing the cursor takes no action and the walk continues.
`none` means the loop fell through to the default (single-character)
behavior. -/
def deleteScan (cursorPos : Nat) (currentPos : Nat) :
    List ParsedSegment → Option (List ParsedSegment × Nat)
  | [] => none
  | s :: rest =>
    if currentPos ≤ cursorPos ∧ cursorPos ≤ currentPos + s.content.length ∧
        s.type = SegType.chip then
      some (rest, currentPos)
    else
      match deleteScan cursorPos (currentPos + s.content.length) rest with
      | some (rest2, pos) => some (s :: rest2, pos)
      | none => none

/-- Backspace branch of `handleKeyDownWithChipDeletion` as a function of the
raw value and the cursor offset: `some (newValue, newCursor)` when a chip is
deleted (the handler prevents the default and emits `newValue` via
`onChange`), `none` when default backspace behavior applies. -/
def handleBackspace (value : List Char) (cursorPos : Nat) :
    Option (List Char × Nat) :=
  match deleteScan cursorPos 0 (parseValue value) with
  | some (segs, pos) => some (segmentsToString segs, pos)
  | none => none

/-- The cursor offset lies in the inclusive range of some chip segment. -/
def hasChipAt (cursorPos currentPos : Nat) : List ParsedSegment → Bool
  | [] => false
  | s :: rest =>
    (decide (currentPos ≤ cursorPos) &&
      decide (cursorPos ≤ currentPos + s.content.length) &&
      (s.type == SegType.chip)) ||
    hasChipAt cursorPos (currentPos + s.content.length) rest

/-- `newValue.endsWith("$")` from `handleInputChange`. -/
def endsWithDollar (l : List Char) : Bool :=
  l.getLast? == some '$'

/-- `newValue.includes("$")` from `handleInputChange`. -/
def containsDollar (l : List Char) : Bool :=
  l.contains '$'

/-- Dropdown visibility after `handleInputChange` runs on the new value:
if the new value ends with a dollar sign and the dropdown is closed, open
it; otherwise, if the new value contains no dollar sign and the dropdown is
open, close it; otherwise leave it unchanged. -/
def dropdownAfterChange (newValue : List Char) (showDropdown : Bool) : Bool :=
  if endsWithDollar newValue && !showDropdown then true
  else if !containsDollar newValue && showDropdown then false
  else showDropdown

/-- The trigger condition as the spec words it: the string contains an
unterminated dollar trigger, i.e. ends with a dollar sign followed only by
identifier characters.  `"50 + $"` and `"50 + $t"` satisfy it; `"50 + "`
and `"$a + "` (a completed reference) do not. -/
def unterminatedTrigger : List Char → Bool
  | [] => false
  | c :: cs => (c == '$' && cs.all isIdentChar) || unterminatedTrigger cs

/-- A reference-able entity (`TransactionResponseDto`): only the `id` field
participates in the editing logic (lookup and token insertion); the display
fields (description, amounts) do not affect it. -/
structure Transaction where
  id : List Char
deriving DecidableEq, Repr

/-- `currentValue.lastIndexOf("$")`: index of the last dollar sign, `none`
when there is none (JS returns -1). -/
def lastDollarIndex : List Char → Option Nat
  | [] => none
  | c :: cs =>
    match lastDollarIndex cs with
    | some i => some (i + 1)
    | none => if c = '$' then some 0 else none

/-- `handleChipSelect`: if the value contains a dollar sign, replace the
last one by the full token `$<id>`, emit the new value, and schedule the
cursor immediately after the inserted token; in every case close the
dropdown.  Result: (value after the call, scheduled cursor if any,
dropdown-open flag after the call). -/
def handleChipSelect (currentValue : List Char) (t : Transaction) :
    List Char × Option Nat × Bool :=
  match lastDollarIndex currentValue with
  | some i =>
    (currentValue.take i ++ '$' :: t.id ++ currentValue.drop (i + 1),
      some (i + t.id.length + 1), false)
  | none => (currentValue, none, false)

/-- JS array indexing `filteredOptions[selectedIndex]` with a possibly
negative index: `undefined` outside bounds. -/
def getOpt (l : List Transaction) (i : Int) : Option Transaction :=
  if 0 ≤ i then l[i.toNat]? else none

/-- Enter branch of `handleKeyDown` with the dropdown open: when the
highlighted option exists it is selected via `handleChipSelect`; otherwise
nothing changes and the dropdown stays open. -/
def enterKey (opts : List Transaction) (selectedIndex : Int)
    (localValue : List Char) : List Char × Option Nat × Bool :=
  match getOpt opts selectedIndex with
  | some t => handleChipSelect localValue t
  | none => (localValue, none, true)

/-- ArrowDown branch of `handleKeyDown`:
`Math.min(selectedIndex + 1, filteredOptions.length - 1)`, over integers as
in JS (with no options the clamp target is -1). -/
def arrowDown (prev : Int) (numOptions : Int) : Int :=
  min (prev + 1) (numOptions - 1)

/-- ArrowUp branch of `handleKeyDown`: `Math.max(selectedIndex - 1, 0)`. -/
def arrowUp (prev : Int) : Int :=
  max (prev - 1) 0

/-- `getTransactionById`: look an identifier up in the options list. -/
def getTransactionById (options : List Transaction) (id : List Char) :
    Option Transaction :=
  options.find? (fun o => o.id == id)

/-- What the per-segment render step yields: a chip component or a plain
text span. -/
inductive Rendered where
  | chipView : Transaction → Rendered
  | textView : List Char → Rendered
deriving DecidableEq, Repr

/-- The per-segment render step of `ExpressionComponent`: a chip segment
whose identifier resolves renders as a chip; a chip segment whose lookup
fails falls through to a plain text span showing the segment's literal
content (no error); a text segment renders as a span. -/
def renderSegment (options : List Transaction) (s : ParsedSegment) :
    Rendered :=
  if s.type = SegType.chip then
    match getTransactionById options (s.transactionId.getD []) with
    | some t => Rendered.chipView t
    | none => Rendered.textView s.content
  else
    Rendered.textView s.content

theorem segmentsToString_append (a b : List ParsedSegment) :
    segmentsToString (a ++ b) = segmentsToString a ++ segmentsToString b := by
  simp [segmentsToString]

theorem segmentsToString_nil : segmentsToString [] = [] := rfl

theorem segmentsToString_cons (s : ParsedSegment) (rest : List ParsedSegment) :
    segmentsToString (s :: rest) = s.content ++ segmentsToString rest := by
  simp [segmentsToString]

theorem parseAux_concat (n : Nat) :
    ∀ (rest pending : List Char), rest.length ≤ n →
      segmentsToString (parseAux pending rest) = pending ++ rest := by
  induction n with
  | zero =>
    intro rest pending h
    have hr : rest = [] := List.length_eq_zero.mp (Nat.le_zero.mp h)
    subst hr
    by_cases hp : pending = [] <;> simp [parseAux, segmentsToString, hp]
  | succ n ih =>
    intro rest pending h
    match rest with
    | [] =>
      by_cases hp : pending = [] <;> simp [parseAux, segmentsToString, hp]
    | c :: cs =>
      rw [parseAux]
      by_cases hc : c = '$' ∧ cs.takeWhile isIdentChar ≠ []
      · rw [if_pos hc, segmentsToString_append]
        have hcs : cs.length ≤ n := by
          simpa using h
        have hdw : (cs.dropWhile isIdentChar).length ≤ n :=
          le_trans (List.dropWhile_suffix (p := isIdentChar) (l := cs)).length_le hcs
        have hih := ih (cs.dropWhile isIdentChar) [] hdw
        obtain ⟨hdollar, -⟩ := hc
        subst hdollar
        by_cases hp : pending = [] <;>
          simp [hp, segmentsToString_cons, segmentsToString_nil, hih,
            List.takeWhile_append_dropWhile]
      · rw [if_neg hc]
        have hcs : cs.length ≤ n := by
          simpa using h
        rw [ih cs (pending ++ [c]) hcs]
        simp

theorem parseValue_roundtrip (val : List Char) :
    segmentsToString (parseValue val) = val := by
  simpa [parseValue] using parseAux_concat val.length val [] le_rfl

/-- C1: round-trip law.  For every string `x` (as its character list),
serializing the segment sequence produced by parsing `x` — concatenating the
`content` fields of `parseValue x` in order via `segmentsToString` — yields
exactly `x`. -/
theorem c1_parse_serialize_roundtrip (x : List Char) :
    segmentsToString (parseValue x) = x :=
  parseValue_roundtrip x

theorem parseAux_countP (n : Nat) :
    ∀ (rest pending : List Char), rest.length ≤ n →
      (parseAux pending rest).countP (fun s => s.type == SegType.chip) =
        countMatches rest := by
  induction n with
  | zero =>
    intro rest pending h
    have hr : rest = [] := List.length_eq_zero.mp (Nat.le_zero.mp h)
    subst hr
    by_cases hp : pending = [] <;> simp [parseAux, countMatches, hp]
  | succ n ih =>
    intro rest pending h
    match rest with
    | [] =>
      by_cases hp : pending = [] <;> simp [parseAux, countMatches, hp]
    | c :: cs =>
      rw [parseAux, countMatches]
      have hcs : cs.length ≤ n := by
        simpa using h
      by_cases hc : c = '$' ∧ cs.takeWhile isIdentChar ≠ []
      · rw [if_pos hc, if_pos hc]
        have hdw : (cs.dropWhile isIdentChar).length ≤ n :=
          le_trans (List.dropWhile_suffix (p := isIdentChar) (l := cs)).length_le hcs
        have hih := ih (cs.dropWhile isIdentChar) [] hdw
        by_cases hp : pending = [] <;>
          simp [hp, List.countP_append, List.countP_cons, hih, Nat.add_comm]
      · rw [if_neg hc, if_neg hc]
        exact ih cs (pending ++ [c]) hcs

theorem parseValue_countP (x : List Char) :
    (parseValue x).countP (fun s => s.type == SegType.chip) = countMatches x :=
  parseAux_countP x.length x [] le_rfl

/-- C6: chip count invariant.  For every string `x`, the number of chip
segments in `parseValue x` equals the number of non-overlapping,
left-to-right matches of `$[a-zA-Z0-9-]+` in `x`; moreover the dollar sign
is excluded from the identifier character class, so the adjacent tokens in
`"$a$b"` parse as two independent chip segments. -/
theorem c6_chip_count (x : List Char) :
    (parseValue x).countP (fun s => s.type == SegType.chip) = countMatches x ∧
    isIdentChar '$' = false ∧
    parseValue "$a$b".data =
      [⟨SegType.chip, "$a".data, some "a".data⟩,
       ⟨SegType.chip, "$b".data, some "b".data⟩] ∧
    countMatches "$a$b".data = 2 := by
  refine ⟨parseValue_countP x, by decide, ?_, ?_⟩
  · simp +decide [parseValue, parseAux]
  · simp +decide [countMatches]

theorem parseAux_structure (n : Nat) :
    ∀ (rest pending : List Char), rest.length ≤ n →
      (∀ s ∈ parseAux pending rest, s.type = SegType.text → s.content ≠ []) ∧
      List.Chain'
        (fun a b => ¬(a.type = SegType.text ∧ b.type = SegType.text))
        (parseAux pending rest) := by
  induction n with
  | zero =>
    intro rest pending h
    have hr : rest = [] := List.length_eq_zero.mp (Nat.le_zero.mp h)
    subst hr
    by_cases hp : pending = [] <;> simp [parseAux, hp]
  | succ n ih =>
    intro rest pending h
    match rest with
    | [] =>
      by_cases hp : pending = [] <;> simp [parseAux, hp]
    | c :: cs =>
      rw [parseAux]
      have hcs : cs.length ≤ n := by
        simpa using h
      by_cases hc : c = '$' ∧ cs.takeWhile isIdentChar ≠ []
      · rw [if_pos hc]
        have hdw : (cs.dropWhile isIdentChar).length ≤ n :=
          le_trans (List.dropWhile_suffix (p := isIdentChar) (l := cs)).length_le hcs
        obtain ⟨hih1, hih2⟩ := ih (cs.dropWhile isIdentChar) [] hdw
        constructor
        · intro s hs hst
          by_cases hp : pending = [] <;> simp [hp] at hs
          · rcases hs with hs | hs
            · rw [hs] at hst
              simp at hst
            · exact hih1 s hs hst
          · rcases hs with hs | hs | hs
            · rw [hs]
              simpa using hp
            · rw [hs] at hst
              simp at hst
            · exact hih1 s hs hst
        · by_cases hp : pending = []
          · rw [if_pos hp, List.nil_append]
            exact List.chain'_cons'.mpr ⟨fun y _ => by simp, hih2⟩
          · rw [if_neg hp, List.singleton_append]
            refine List.chain'_cons.mpr ⟨by simp, ?_⟩
            exact List.chain'_cons'.mpr ⟨fun y _ => by simp, hih2⟩
      · rw [if_neg hc]
        exact ih cs (pending ++ [c]) hcs

/-- C10: parse output structure invariant.  For every string `x`, every text
segment of `parseValue x` has nonempty content, and no two text segments are
adjacent in the output sequence. -/
theorem c10_parse_structure (x : List Char) :
    (∀ s ∈ parseValue x, s.type = SegType.text → s.content ≠ []) ∧
    List.Chain'
      (fun a b => ¬(a.type = SegType.text ∧ b.type = SegType.text))
      (parseValue x) :=
  parseAux_structure x.length x [] le_rfl

/-- C10 witness: for the concrete input `"a$b"`, the text segment `"a"` of
its parse is nonempty and the parse has no two adjacent text segments. -/
theorem c10_parse_structure_witness :
    (⟨SegType.text, ['a'], none⟩ : ParsedSegment).content ≠ [] ∧
    List.Chain'
      (fun a b => ¬(a.type = SegType.text ∧ b.type = SegType.text))
      (parseValue "a$b".data) :=
  ⟨(c10_parse_structure "a$b".data).1 ⟨SegType.text, ['a'], none⟩
      (by simp +decide [parseValue, parseAux]) rfl,
   (c10_parse_structure "a$b".data).2⟩

/-- C5: idempotent re-parse.  For every string `x`, parsing the serialization
of `parseValue x` yields exactly the same segment sequence (hence the same
segments and boundaries) as `parseValue x`. -/
theorem c5_reparse_idempotent (x : List Char) :
    parseValue (segmentsToString (parseValue x)) = parseValue x := by
  rw [parseValue_roundtrip]

theorem deleteScan_spec (segs : List ParsedSegment) :
    ∀ (cursorPos currentPos : Nat),
      hasChipAt cursorPos currentPos segs = true →
      ∃ pre s post,
        segs = pre ++ s :: post ∧
        s.type = SegType.chip ∧
        currentPos + segsLength pre ≤ cursorPos ∧
        cursorPos ≤ currentPos + segsLength pre + s.content.length ∧
        deleteScan cursorPos currentPos segs =
          some (pre ++ post, currentPos + segsLength pre) := by
  induction segs with
  | nil =>
    intro cursorPos currentPos h
    simp [hasChipAt] at h
  | cons s0 rest ih =>
    intro cursorPos currentPos h
    by_cases h0 : currentPos ≤ cursorPos ∧
        cursorPos ≤ currentPos + s0.content.length ∧ s0.type = SegType.chip
    · refine ⟨[], s0, rest, rfl, h0.2.2, ?_, ?_, ?_⟩
      · simpa [segsLength] using h0.1
      · simpa [segsLength] using h0.2.1
      · rw [deleteScan, if_pos h0]
        simp [segsLength]
    · have hrest : hasChipAt cursorPos (currentPos + s0.content.length) rest =
          true := by
        simp [hasChipAt] at h
        rcases h with h | h
        · exact absurd ⟨h.1.1, h.1.2, h.2⟩ h0
        · exact h
      obtain ⟨pre, s, post, heq, hchip, h1, h2, hds⟩ := ih _ _ hrest
      refine ⟨s0 :: pre, s, post, by simp [heq], hchip, ?_, ?_, ?_⟩
      · simp only [segsLength, List.map_cons, List.sum_cons] at h1 ⊢
        omega
      · simp only [segsLength, List.map_cons, List.sum_cons] at h2 ⊢
        omega
      · rw [deleteScan, if_neg h0, hds]
        simp only [segsLength, List.map_cons, List.sum_cons,
          Option.some.injEq, Prod.mk.injEq]
        exact ⟨by simp, by omega⟩

/-- C2: atomic reference deletion.  For every raw string and every Backspace
whose cursor offset lies within a chip segment of the parsed string, the
handler removes an entire chip segment containing the cursor in one
operation — emitting via `onChange` the concatenation of all remaining
segments — and places the cursor at the removed segment's start offset. -/
theorem c2_atomic_chip_delete (val : List Char) (cursorPos : Nat)
    (h : hasChipAt cursorPos 0 (parseValue val) = true) :
    ∃ pre s post,
      parseValue val = pre ++ s :: post ∧
      s.type = SegType.chip ∧
      segsLength pre ≤ cursorPos ∧
      cursorPos ≤ segsLength pre + s.content.length ∧
      handleBackspace val cursorPos =
        some (segmentsToString (pre ++ post), segsLength pre) := by
  obtain ⟨pre, s, post, h1, h2, h3, h4, h5⟩ :=
    deleteScan_spec (parseValue val) cursorPos 0 h
  refine ⟨pre, s, post, h1, h2, by simpa using h3, by simpa using h4, ?_⟩
  simp only [handleBackspace, h5]
  simp

/-- C2 witness: for raw string `"100 + $txn-1"` with Backspace at offset 12
(immediately after `$txn-1`, inside the chip segment), the handler deletes
the whole token: the emitted string is `"100 + "` and the cursor lands at
offset 6, the removed segment's start. -/
theorem c2_atomic_chip_delete_witness :
    hasChipAt 12 0 (parseValue "100 + $txn-1".data) = true ∧
    (∃ pre s post,
      parseValue "100 + $txn-1".data = pre ++ s :: post ∧
      s.type = SegType.chip ∧
      segsLength pre ≤ 12 ∧
      12 ≤ segsLength pre + s.content.length ∧
      handleBackspace "100 + $txn-1".data 12 =
        some (segmentsToString (pre ++ post), segsLength pre)) ∧
    handleBackspace "100 + $txn-1".data 12 = some ("100 + ".data, 6) := by
  have hin : hasChipAt 12 0 (parseValue "100 + $txn-1".data) = true := by
    simp +decide [parseValue, parseAux, hasChipAt]
  refine ⟨hin, c2_atomic_chip_delete "100 + $txn-1".data 12 hin, ?_⟩
  simp +decide [handleBackspace, parseValue, parseAux, deleteScan,
    segmentsToString]

theorem deleteScan_skip (cursorPos : Nat) :
    ∀ (pre tail : List ParsedSegment) (currentPos : Nat),
      currentPos + segsLength pre < cursorPos →
      deleteScan cursorPos currentPos (pre ++ tail) =
        (match deleteScan cursorPos (currentPos + segsLength pre) tail with
         | some (rest2, pos) => some (pre ++ rest2, pos)
         | none => none) := by
  intro pre
  induction pre with
  | nil =>
    intro tail currentPos h
    simp only [List.nil_append, segsLength, List.map_nil, List.sum_nil,
      Nat.add_zero]
    rcases hds : deleteScan cursorPos currentPos tail with - | p
    · rfl
    · rcases p with ⟨rest2, pos⟩
      rfl
  | cons s0 pre ih =>
    intro tail currentPos h
    simp only [segsLength, List.map_cons, List.sum_cons] at h
    have hno : ¬(currentPos ≤ cursorPos ∧
        cursorPos ≤ currentPos + s0.content.length ∧
        s0.type = SegType.chip) := by
      rintro ⟨-, h2, -⟩
      omega
    rw [List.cons_append, deleteScan, if_neg hno,
      ih tail (currentPos + s0.content.length) (by simp only [segsLength]; omega)]
    simp only [segsLength, List.map_cons, List.sum_cons]
    have harith : currentPos + s0.content.length +
        (pre.map (fun s => s.content.length)).sum =
        currentPos + (s0.content.length +
          (pre.map (fun s => s.content.length)).sum) := by
      omega
    rw [harith]
    rcases hds : deleteScan cursorPos
        (currentPos + (s0.content.length +
          (pre.map (fun s => s.content.length)).sum)) tail with - | p
    · rfl
    · rcases p with ⟨rest2, pos⟩
      rfl

/-- C9: boundary backspace deletes the chip, not the preceding character.
For every raw string whose parse has a text segment immediately followed by
a chip segment, Backspace with the cursor exactly at the boundary offset
(the end of the text segment, which is the start of the chip segment)
removes the entire chip segment — the text segment takes no action, the scan
continues, and the chip's inclusive range claims the cursor — leaving the
text segment intact and the cursor at the boundary. -/
theorem c9_boundary_backspace (val : List Char) (pre : List ParsedSegment)
    (t c : ParsedSegment) (post : List ParsedSegment)
    (hparse : parseValue val = pre ++ t :: c :: post)
    (ht : t.type = SegType.text) (hc : c.type = SegType.chip) :
    handleBackspace val (segsLength pre + t.content.length) =
      some (segmentsToString (pre ++ t :: post),
        segsLength pre + t.content.length) := by
  have hmem : t ∈ parseValue val := by
    rw [hparse]
    exact List.mem_append.mpr (Or.inr (by simp))
  have htne : t.content ≠ [] :=
    (parseAux_structure val.length val [] le_rfl).1 t
      (by simpa [parseValue] using hmem) ht
  have htlen : 0 < t.content.length := List.length_pos.mpr htne
  have hinner : deleteScan (segsLength pre + t.content.length)
      (0 + segsLength pre + t.content.length) (c :: post) =
      some (post, 0 + segsLength pre + t.content.length) := by
    rw [deleteScan]
    rw [if_pos ⟨by omega, by omega, hc⟩]
  have hstep : deleteScan (segsLength pre + t.content.length)
      (0 + segsLength pre) (t :: c :: post) =
      some (t :: post, segsLength pre + t.content.length) := by
    rw [deleteScan]
    rw [if_neg ?hno]
    case hno =>
      rintro ⟨-, -, h3⟩
      rw [ht] at h3
      simp at h3
    rw [hinner]
    simp only [Option.some.injEq, Prod.mk.injEq]
    exact ⟨trivial, by omega⟩
  have hds : deleteScan (segsLength pre + t.content.length) 0
      (parseValue val) =
      some (pre ++ t :: post, segsLength pre + t.content.length) := by
    rw [hparse,
      deleteScan_skip (segsLength pre + t.content.length) pre
        (t :: c :: post) 0 (by omega),
      hstep]
  simp only [handleBackspace, hds]

/-- C9 witness: for the concrete raw string `"a$b"`, whose parse is the text
segment `"a"` followed by the chip segment `"$b"`, Backspace at the boundary
offset 1 removes the whole chip: the emitted string is `"a"` and the cursor
stays at offset 1. -/
theorem c9_boundary_backspace_witness :
    handleBackspace "a$b".data 1 = some (['a'], 1) := by
  have h := c9_boundary_backspace "a$b".data []
    ⟨SegType.text, ['a'], none⟩ ⟨SegType.chip, ['$', 'b'], some ['b']⟩ []
    (by simp +decide [parseValue, parseAux]) rfl rfl
  simpa [segsLength, segmentsToString] using h

/-- C3 counterexample: an edit that leaves the value `"$a + "` — which ends
in a completed reference, so the trigger condition no longer holds — while
the dropdown is open does NOT close the dropdown: the close branch only
fires when the string contains no dollar sign at all. -/
theorem c3_dropdown_counterexample :
    unterminatedTrigger "$a + ".data = false ∧
    dropdownAfterChange "$a + ".data true = true := by
  decide

theorem endsWithDollar_contains (l : List Char)
    (h : endsWithDollar l = true) : containsDollar l = true := by
  unfold endsWithDollar at h
  unfold containsDollar
  have hlast : l.getLast? = some '$' := by
    simpa using h
  have hmem : '$' ∈ l := by
    obtain ⟨hne, hx⟩ := List.mem_getLast?_eq_getLast (Option.mem_def.mpr hlast)
    rw [hx]
    exact List.getLast_mem hne
  simpa [List.contains] using hmem

/-- C3 (amended): the invariant that actually holds of `handleInputChange`.
Whenever the dropdown is open after an edit, the raw string still contains
a dollar sign (not necessarily an unterminated trigger); an edit after
which no dollar sign remains (e.g. deleting back to `"50 + "`) closes the
dropdown; but an edit whose result still contains a dollar sign without
ending in one (e.g. a completed reference such as `"$a + "`) leaves the
dropdown state unchanged, open or closed. -/
theorem c3_dropdown_dollar_invariant (v : List Char) (b : Bool) :
    (dropdownAfterChange v b = true → containsDollar v = true) ∧
    (containsDollar v = false → dropdownAfterChange v b = false) ∧
    (containsDollar v = true → endsWithDollar v = false →
      dropdownAfterChange v b = b) := by
  refine ⟨?_, ?_, ?_⟩
  · intro h
    unfold dropdownAfterChange at h
    by_cases he : endsWithDollar v = true
    · exact endsWithDollar_contains v he
    · by_cases hc : containsDollar v = true
      · exact hc
      · simp [he, hc] at h
  · intro hc
    have he : endsWithDollar v = false := by
      by_contra hne
      rw [endsWithDollar_contains v (by simpa using hne)] at hc
      exact absurd hc (by simp)
    unfold dropdownAfterChange
    cases b <;> simp [he, hc]
  · intro hc he
    unfold dropdownAfterChange
    cases b <;> simp [he, hc]

/-- C3 witness: deleting back to `"50 + "` (no dollar sign) while the
dropdown is open closes it. -/
theorem c3_dropdown_dollar_invariant_witness :
    dropdownAfterChange "50 + ".data true = false :=
  (c3_dropdown_dollar_invariant "50 + ".data true).2.1 (by decide)

theorem lastDollarIndex_append_dollar (w : List Char) :
    lastDollarIndex (w ++ ['$']) = some w.length := by
  induction w with
  | nil => rfl
  | cons c cs ih =>
    rw [List.cons_append, lastDollarIndex, ih]
    simp

theorem handleChipSelect_trailing (w : List Char) (t : Transaction) :
    handleChipSelect (w ++ ['$']) t =
      (w ++ '$' :: t.id, some (w.length + t.id.length + 1), false) := by
  have htake : (w ++ ['$']).take w.length = w := List.take_left w ['$']
  have hdrop : (w ++ ['$']).drop (w.length + 1) = [] := by
    rw [← List.drop_drop, List.drop_left]
    rfl
  simp only [handleChipSelect, lastDollarIndex_append_dollar, htake, hdrop]
  simp

/-- C4: selection insertion.  With the dropdown open on a value ending in a
trailing bare dollar sign, selecting an entity (Enter on an existing
highlighted option resolving to `t`, or a click, which invokes the same
selection handler) replaces the trailing `$` by the full token `$<id>`,
emits the complete new string, schedules the cursor immediately after the
inserted token (the third conjunct shows that offset is the end of the new
string), and closes the dropdown.  The last two conjuncts are the concrete
end-to-end scenario: typing `"100 + $"` opens the dropdown, and Enter with
highlighted index 0 on entity `txn-1` yields `"100 + $txn-1"` with cursor
12 and the dropdown closed. -/
theorem c4_selection_insertion (w : List Char) (opts : List Transaction)
    (i : Int) (t : Transaction) (hopt : getOpt opts i = some t) :
    enterKey opts i (w ++ ['$']) =
      (w ++ '$' :: t.id, some (w.length + t.id.length + 1), false) ∧
    handleChipSelect (w ++ ['$']) t =
      (w ++ '$' :: t.id, some (w.length + t.id.length + 1), false) ∧
    (w ++ '$' :: t.id).length = w.length + t.id.length + 1 ∧
    dropdownAfterChange "100 + $".data false = true ∧
    enterKey [⟨"txn-1".data⟩] 0 "100 + $".data =
      ("100 + $txn-1".data, some 12, false) := by
  refine ⟨?_, handleChipSelect_trailing w t, by simp [Nat.add_assoc],
    by decide, by decide⟩
  rw [enterKey, hopt]
  exact handleChipSelect_trailing w t

/-- C4 witness: Enter with highlighted index 0 on the sole entity `txn-1`
over the value `"100 + $"` produces `"100 + $txn-1"` with the cursor after
the token and the dropdown closed. -/
theorem c4_selection_insertion_witness :
    enterKey [⟨"txn-1".data⟩] 0 ("100 + ".data ++ ['$']) =
      ("100 + ".data ++ '$' :: "txn-1".data,
        some ("100 + ".data.length + "txn-1".data.length + 1), false) :=
  (c4_selection_insertion "100 + ".data [⟨"txn-1".data⟩] 0 ⟨"txn-1".data⟩
    (by decide)).1

/-- C7: keyboard navigation bounds.  With `n > 0` options and a highlighted
index `i` in range, ArrowDown increments the index clamped to `n - 1` and
stays in range, ArrowUp decrements clamped to 0 and stays in range; and
concretely, with 3 options, five ArrowDown presses from index 0 leave the
index at 2 — neither 4 nor wrapped. -/
theorem c7_arrow_navigation_bounds (n i : Int) (h0 : 0 ≤ i) (h1 : i < n) :
    (0 ≤ arrowDown i n ∧ arrowDown i n < n) ∧
    (i + 1 < n → arrowDown i n = i + 1) ∧
    (i + 1 = n → arrowDown i n = i) ∧
    (0 ≤ arrowUp i ∧ arrowUp i ≤ i) ∧
    (1 ≤ i → arrowUp i = i - 1) ∧
    (i = 0 → arrowUp i = 0) ∧
    (fun j => arrowDown j 3)^[5] 0 = 2 := by
  simp only [arrowDown, arrowUp]
  refine ⟨⟨?_, ?_⟩, ?_, ?_, ⟨?_, ?_⟩, ?_, ?_, ?_⟩
  all_goals first
    | omega
    | decide

/-- C7 witness: with 3 options, one ArrowDown from index 1 gives index 2,
and five ArrowDown presses from index 0 give index 2. -/
theorem c7_arrow_navigation_bounds_witness :
    arrowDown 1 3 = 2 ∧ (fun j => arrowDown j 3)^[5] 0 = 2 :=
  ⟨by simpa using
      (c7_arrow_navigation_bounds 3 1 (by decide) (by decide)).2.1 (by decide),
   (c7_arrow_navigation_bounds 3 1 (by decide) (by decide)).2.2.2.2.2.2⟩

/-- C8: unresolvable reference fallback.  `parseValue "$unknown-id"` is
exactly one chip segment — the parser takes no entity list at all, as its
type shows — and for every options list in which no entity has id
`unknown-id`, the render step shows the literal text `$unknown-id` rather
than a chip, without any error path. -/
theorem c8_unresolved_fallback (options : List Transaction)
    (h : ∀ t ∈ options, t.id ≠ "unknown-id".data) :
    parseValue "$unknown-id".data =
      [⟨SegType.chip, "$unknown-id".data, some "unknown-id".data⟩] ∧
    renderSegment options
        ⟨SegType.chip, "$unknown-id".data, some "unknown-id".data⟩ =
      Rendered.textView "$unknown-id".data := by
  constructor
  · simp +decide [parseValue, parseAux]
  · have hfind : getTransactionById options "unknown-id".data = none := by
      rw [getTransactionById, List.find?_eq_none]
      intro t ht
      simpa using h t ht
    simp [renderSegment, hfind]

/-- C8 witness: with a mismatched entity list containing only `txn-1`,
`"$unknown-id"` parses to one chip segment and renders as the literal text
`$unknown-id`. -/
theorem c8_unresolved_fallback_witness :
    parseValue "$unknown-id".data =
      [⟨SegType.chip, "$unknown-id".data, some "unknown-id".data⟩] ∧
    renderSegment [⟨"txn-1".data⟩]
        ⟨SegType.chip, "$unknown-id".data, some "unknown-id".data⟩ =
      Rendered.textView "$unknown-id".data :=
  c8_unresolved_fallback [⟨"txn-1".data⟩] (by decide)
